import Mathlib

/-!
# VaultShield / GridSense anomaly-detection engine: a shallow embedding

This file embeds, in Lean, the transition-model trainer, the session
scorers, the threshold calibrator and the soft-metric evaluator of the
repository, and proves (or refutes) the specification's claims about them.

Conventions of the embedding:
* event types and states are `String`s, as in the Python sources;
* Python floats are modelled as exact rationals (`ℚ`); the probabilities the
  code manipulates are ratios of counts and the fixed constants `1e-5`,
  `1e-6`, `1e-9`, all exactly representable as rationals, so the only
  idealisation is the absence of rounding error;
* `log` is the real logarithm `Real.log`, so anomaly scores live in `ℝ`;
* a training corpus is the list of the qualifying (non-attack) sessions'
  event lists, in the order the `groupby` iteration presents them; a pandas
  `groupby` never yields an empty group, so sessions reaching the trainers
  are non-empty lists.
-/

/-! ## Shared data model (train_markov_chain.py, score_sequences.py) -/

def START_TOKEN : String := "SESSION_START"

def END_TOKEN : String := "SESSION_END"

/-- `[START_TOKEN] + events + [END_TOKEN]`: the padding applied by both the
trainer and the scorer (`full_sequence` in `score_sequences.score_session`,
and the START/END count updates in `build_transition_matrix`). -/
def paddedSequence (events : List String) : List String :=
  START_TOKEN :: events ++ [END_TOKEN]

/-- The adjacent pairs of a list: the transitions a walk over
`range(len(seq) - 1)` visits. -/
def transitionPairs : List String → List (String × String)
  | a :: b :: rest => (a, b) :: transitionPairs (b :: rest)
  | _ => []

/-- All transitions of one session, sentinels included.  For a non-empty
`events` this is exactly the set of increments `build_transition_matrix`
performs for the session: `START → events[0]`, each adjacent pair, and
`events[-1] → END`. -/
def sessionPairs (events : List String) : List (String × String) :=
  transitionPairs (paddedSequence events)

/-! ## Trainer of `train_markov_chain.build_transition_matrix` -/

/-- The transitions of the whole corpus, one session after the other. -/
def corpusPairs (sessions : List (List String)) : List (String × String) :=
  (sessions.map sessionPairs).flatten

/-- The raw count matrix cell `counts[s, t]` after all sessions are
processed. -/
def corpusCount (sessions : List (List String)) (s t : String) : ℕ :=
  List.count (s, t) (corpusPairs sessions)

/-- `sorted(df_normal["event_type"].unique().tolist())`: the sorted
deduplicated list of every event occurring in the corpus. -/
def uniqueEvents (sessions : List (List String)) : List String :=
  List.insertionSort (fun a b => a ≤ b) sessions.flatten.dedup

/-- `[START_TOKEN] + unique_events + [END_TOKEN]`: the frozen state space in
index order. -/
def states (sessions : List (List String)) : List String :=
  START_TOKEN :: uniqueEvents sessions ++ [END_TOKEN]

/-- The Laplace smoothing constant `epsilon = 1e-5` added to every cell of
the count matrix. -/
def EPS_TRAIN : ℚ := 1 / 100000

/-- The row sum `row_sums[s]` of the smoothed count matrix: the sum over the
row's cells of `counts[s, t] + epsilon`. -/
def rowTotal (sessions : List (List String)) (s : String) : ℚ :=
  ((states sessions).map fun t => (corpusCount sessions s t : ℚ) + EPS_TRAIN).sum

/-- The trained transition probability `probs[s, t] =
(counts[s, t] + epsilon) / row_sums[s]`. -/
def transProb (sessions : List (List String)) (s t : String) : ℚ :=
  ((corpusCount sessions s t : ℚ) + EPS_TRAIN) / rowTotal sessions s

/-- A corpus as real traffic hands it to the trainer: no session contains a
sentinel token, and no session is empty (a `groupby` yields no empty
group). -/
def TrainCorpus (sessions : List (List String)) : Prop :=
  START_TOKEN ∉ sessions.flatten ∧ END_TOKEN ∉ sessions.flatten ∧
    ∀ e ∈ sessions, e ≠ []

/-! ## Scorer of `score_sequences.score_session` -/

/-- `EPSILON = 1e-9` of `score_sequences.py` and `vaultshield_pipeline.py`:
the fallback for unknown states and the clamp floor before `log`. -/
def EPS_SCORE : ℚ := 1 / 1000000000

/-- The probability looked up for one step: `EPSILON` when either endpoint is
missing from the state map, otherwise the matrix entry. -/
def lookupProb (sts : List String) (P : String → String → ℚ)
    (u v : String) : ℚ :=
  if u ∈ sts ∧ v ∈ sts then P u v else EPS_SCORE

/-- `prob = max(prob, EPSILON)`: the clamp applied before taking the
logarithm. -/
def stepProb (sts : List String) (P : String → String → ℚ)
    (u v : String) : ℚ :=
  max (lookupProb sts P u v) EPS_SCORE

/-- The accumulated total `total_nll`: the sum of `-log(prob)` over the
padded sequence's transitions. -/
noncomputable def scoreSessionTotal (sts : List String)
    (P : String → String → ℚ) (events : List String) : ℝ :=
  ((sessionPairs events).map fun p =>
    -Real.log ((stepProb sts P p.1 p.2 : ℚ) : ℝ)).sum

/-- The value `score_session` returns as score:
`normalized_score = total_nll / len(full_sequence)`. -/
noncomputable def scoreSession (sts : List String)
    (P : String → String → ℚ) (events : List String) : ℝ :=
  scoreSessionTotal sts P events / ((paddedSequence events).length : ℝ)

/-! ## Trainer and scorer of `vaultshield_pipeline.py` -/

/-- The transitions `train_markov_model` counts: sessions with zero events
are skipped by `if not events: continue`; the rest are padded and walked. -/
def pipelinePairs (sessions : List (List String)) : List (String × String) :=
  ((sessions.filter fun e => !e.isEmpty).map sessionPairs).flatten

/-- `transitions[u][v]` of `train_markov_model`. -/
def pipelineCount (sessions : List (List String)) (u v : String) : ℕ :=
  List.count (u, v) (pipelinePairs sessions)

/-- `total = sum(targets.values())`: the number of observed transitions out
of `u`. -/
def pipelineOut (sessions : List (List String)) (u : String) : ℕ :=
  ((pipelinePairs sessions).filter fun p => p.1 == u).length

/-- `model.get(u, {}).get(v, EPSILON)` for the un-smoothed model
`model[u][v] = count / total`: the observed ratio when the transition was
seen, `EPSILON` otherwise. -/
def pipelineProb (sessions : List (List String)) (u v : String) : ℚ :=
  if 0 < pipelineCount sessions u v then
    (pipelineCount sessions u v : ℚ) / (pipelineOut sessions u : ℚ)
  else EPS_SCORE

/-- `vaultshield_pipeline.score_session`: pads with the sentinels, sums
`-log(prob)` and divides by `len(seq)`. -/
noncomputable def pipelineScore (sessions : List (List String))
    (events : List String) : ℝ :=
  (((sessionPairs events).map fun p =>
    -Real.log ((pipelineProb sessions p.1 p.2 : ℚ) : ℝ)).sum) /
    ((paddedSequence events).length : ℝ)

/-! ## Raw scorer of `pipelines/vaultshield/score_sessions.py` -/

/-- The start token of `pipelines/vaultshield/train_markov.py` and
`score_sessions.py` (these two files use bare `'START'`/`'END'`). -/
def RAW_START : String := "START"

/-- The transitions the raw scorer's loop walks: `curr` starts at `'START'`
and moves through the events; no `END` transition is appended. -/
def rawPairs (events : List String) : List (String × String) :=
  transitionPairs (RAW_START :: events)

/-- The scoring loop of `score_sessions.main`: `session_risk += -log(prob)`
for each event, `curr` trailing behind.  No division by the length happens
(the normalization is commented out in the source). -/
noncomputable def rawScoreLoop (P : String → String → ℚ) :
    String → List String → ℝ
  | _, [] => 0
  | curr, e :: rest => -Real.log ((P curr e : ℚ) : ℝ) + rawScoreLoop P e rest

/-- The raw anomaly score `session_risk` of one session. -/
noncomputable def rawSessionRisk (P : String → String → ℚ)
    (events : List String) : ℝ :=
  rawScoreLoop P RAW_START events

/-! ## Threshold calibrator (vaultshield_pipeline.export_artifacts,
gridsense anomaly_model.main) -/

/-- The sample sorted ascending, as the quantile routine sees it. -/
def quantileSorted (xs : List ℚ) : List ℚ :=
  List.insertionSort (fun a b => a ≤ b) xs

/-- The fractional rank `h = q * (n - 1)` used by the linear-interpolation
quantile. -/
def quantilePos (xs : List ℚ) (q : ℚ) : ℚ :=
  q * (((quantileSorted xs).length : ℚ) - 1)

/-- The linear-interpolation quantile pandas' `Series.quantile` and
`np.quantile` compute: with the sample `s` sorted ascending and
`h = q * (n - 1)`, the value `s[⌊h⌋] + (h - ⌊h⌋) * (s[⌈h⌉] - s[⌊h⌋])`.
Only used on non-empty samples (pandas returns NaN on an empty one). -/
def quantileLinear (xs : List ℚ) (q : ℚ) : ℚ :=
  (quantileSorted xs).getD ⌊quantilePos xs q⌋.toNat 0 +
    (quantilePos xs q - ((⌊quantilePos xs q⌋.toNat : ℕ) : ℚ)) *
      ((quantileSorted xs).getD ⌈quantilePos xs q⌉.toNat 0 -
        (quantileSorted xs).getD ⌊quantilePos xs q⌋.toNat 0)

/-- `export_artifacts`' calibrator: the 0.99 quantile of the known-normal
anomaly scores, computed unconditionally for any sample handed to it. -/
def calibrateThreshold (normalScores : List ℚ) : ℚ :=
  quantileLinear normalScores (99 / 100)

/-- `y_pred = results_df["anomaly_score"] > threshold` in
`vaultshield_pipeline.export_artifacts`: strictly above the threshold. -/
def vaultshieldPredict (score threshold : ℚ) : Bool :=
  decide (threshold < score)

/-- `preds = (scores >= threshold)` in `gridsense_timeseries.anomaly_model`:
at or above the threshold. -/
def gridsensePredict (score threshold : ℚ) : Bool :=
  decide (threshold ≤ score)

/-! ## Soft-metric evaluator of
`gridsense_timeseries.anomaly_model.evaluate_soft_metrics` -/

/-- Whether index `i` lies in the dilated ("hit zone") version of the
boolean series `y`: the numpy loop marks, for each positive index `j`, the
slice `[max(0, j - r), min(n, j + r + 1))`, so `i < n` is marked iff some
positive `j` satisfies `j - r ≤ i ≤ j + r` — in truncation-free form
`i ≤ j + r ∧ j ≤ i + r`. -/
def nearPositive (y : List Bool) (r i : ℕ) : Bool :=
  (List.range y.length).any fun j =>
    y.getD j false && decide (i ≤ j + r) && decide (j ≤ i + r)

/-- How many indexes below `n` satisfy `p` (the numpy idiom
`np.sum(mask)`). -/
def countIdx (n : ℕ) (p : ℕ → Bool) : ℕ :=
  ((List.range n).filter p).length

/-- `tp_soft = np.sum((y_pred == 1) & (y_true_soft == 1))`: predicted
positives landing in the dilated ground-truth hit zone. -/
def softTP (yTrue yPred : List Bool) (r : ℕ) : ℕ :=
  countIdx yTrue.length fun i => yPred.getD i false && nearPositive yTrue r i

/-- `fp_soft = np.sum((y_pred == 1) & (y_true_soft == 0))`. -/
def softFP (yTrue yPred : List Bool) (r : ℕ) : ℕ :=
  countIdx yTrue.length fun i => yPred.getD i false && !nearPositive yTrue r i

/-- `tp_soft / (tp_soft + fp_soft)` with ground truth dilated, `0.0` when
there are no positive predictions (the `else 0.0` branch, so no
division-by-zero is possible). -/
def softPrecisionRaw (yTrue yPred : List Bool) (r : ℕ) : ℚ :=
  if 0 < softTP yTrue yPred r + softFP yTrue yPred r then
    (softTP yTrue yPred r : ℚ) /
      ((softTP yTrue yPred r : ℚ) + (softFP yTrue yPred r : ℚ))
  else 0

/-- `tp_recall = np.sum((y_pred_expanded == 1) & (y_true == 1))`: true
positives caught by the dilated predictions. -/
def recallTP (yTrue yPred : List Bool) (r : ℕ) : ℕ :=
  countIdx yTrue.length fun i => nearPositive yPred r i && yTrue.getD i false

/-- `fn_recall = np.sum((y_pred_expanded == 0) & (y_true == 1))`. -/
def recallFN (yTrue yPred : List Bool) (r : ℕ) : ℕ :=
  countIdx yTrue.length fun i => !nearPositive yPred r i && yTrue.getD i false

/-- `tp_recall / (tp_recall + fn_recall)` with the predictions dilated,
`0.0` when there are no true positives (the `else 0.0` branch). -/
def softRecallRaw (yTrue yPred : List Bool) (r : ℕ) : ℚ :=
  if 0 < recallTP yTrue yPred r + recallFN yTrue yPred r then
    (recallTP yTrue yPred r : ℚ) /
      ((recallTP yTrue yPred r : ℚ) + (recallFN yTrue yPred r : ℚ))
  else 0

/-- Python's `round(x, 3)` idealised over ℚ: round half to even at the third
decimal (bankers' rounding, as `round` performs on floats). -/
def roundHalfEven (x : ℚ) : ℤ :=
  if x - (⌊x⌋ : ℚ) < 1 / 2 then ⌊x⌋
  else if 1 / 2 < x - (⌊x⌋ : ℚ) then ⌊x⌋ + 1
  else if 2 ∣ ⌊x⌋ then ⌊x⌋ else ⌊x⌋ + 1

/-- Round to three decimals. -/
def round3 (x : ℚ) : ℚ :=
  ((roundHalfEven (x * 1000) : ℤ) : ℚ) / 1000

/-- The record `evaluate_soft_metrics` returns. -/
structure SoftMetrics where
  precision : ℚ
  «recall» : ℚ
  contamination : ℚ
deriving Repr, DecidableEq

/-- `evaluate_soft_metrics(y_true, y_pred, tolerance)`: zero metrics for an
empty series, otherwise the rounded soft precision, soft recall and
`np.mean(y_pred)`. -/
def evaluateSoftMetrics (yTrue yPred : List Bool) (r : ℕ) : SoftMetrics :=
  if yTrue.length = 0 then ⟨0, 0, 0⟩
  else
    { precision := round3 (softPrecisionRaw yTrue yPred r)
      «recall» := round3 (softRecallRaw yTrue yPred r)
      contamination :=
        round3 ((yPred.count true : ℚ) / (yPred.length : ℚ)) }

/-- A boolean series of length `n` whose only positive is at index `k`. -/
def singlePositive (n k : ℕ) : List Bool :=
  (List.range n).map fun i => i == k

/-! ## Generic helper lemmas -/

theorem sum_map_div (l : List ℚ) (r : ℚ) :
    (l.map fun x => x / r).sum = l.sum / r := by
  induction l with
  | nil => simp
  | cons a tl ih => simp [ih, add_div]

theorem getD_map_range {α : Type} (f : ℕ → α) (n i : ℕ) (b : α) :
    ((List.range n).map f).getD i b = if i < n then f i else b := by
  rcases lt_or_ge i n with h | h
  · rw [List.getD_eq_getElem?_getD, List.getElem?_map, List.getElem?_range h]
    simp [h]
  · have hn : (List.range n)[i]? = none := by
      rw [List.getElem?_eq_none_iff]
      simpa using h
    rw [List.getD_eq_getElem?_getD, List.getElem?_map, hn]
    simp [not_lt.mpr h]

theorem filter_range_beq (n k : ℕ) (p : ℕ → Bool) (hk : k < n) :
    (List.range n).filter (fun i => (i == k) && p i) =
      if p k then [k] else [] := by
  induction n with
  | zero => omega
  | succ m ih =>
    rw [List.range_succ, List.filter_append]
    rcases lt_or_ge k m with hkm | hkm
    · have hm : ((m == k) && p m) = false := by
        have : m ≠ k := by omega
        simp [this]
      rw [ih hkm]
      simp [hm]
    · have hmk : k = m := by omega
      subst hmk
      have hnil : (List.range k).filter (fun i => (i == k) && p i) = [] := by
        rw [List.filter_eq_nil_iff]
        intro a ha
        have : a < k := List.mem_range.mp ha
        have : a ≠ k := by omega
        simp [this]
      rw [hnil]
      by_cases hp : p k <;> simp [hp]

/-! ## Trainer invariants (train_markov_chain.build_transition_matrix) -/

theorem EPS_TRAIN_pos : 0 < EPS_TRAIN := by norm_num [EPS_TRAIN]

theorem rowTotal_term_pos (c : List (List String)) (s t : String) :
    0 < (corpusCount c s t : ℚ) + EPS_TRAIN := by
  have := EPS_TRAIN_pos
  positivity

theorem rowTotal_pos (c : List (List String)) (s : String) :
    0 < rowTotal c s := by
  have hmem : ((corpusCount c s START_TOKEN : ℚ) + EPS_TRAIN) ∈
      ((states c).map fun t => (corpusCount c s t : ℚ) + EPS_TRAIN) :=
    List.mem_map_of_mem _ (by simp [states])
  have hle := List.single_le_sum (l :=
      (states c).map fun t => (corpusCount c s t : ℚ) + EPS_TRAIN)
    (fun x hx => by
      obtain ⟨t, _, rfl⟩ := List.mem_map.mp hx
      exact (rowTotal_term_pos c s t).le) _ hmem
  exact lt_of_lt_of_le (rowTotal_term_pos c s START_TOKEN) hle

theorem transProb_pos (c : List (List String)) (s t : String) :
    0 < transProb c s t :=
  div_pos (rowTotal_term_pos c s t) (rowTotal_pos c s)

theorem transProb_le_one (c : List (List String)) (s : String) {t : String}
    (ht : t ∈ states c) : transProb c s t ≤ 1 := by
  unfold transProb
  rw [div_le_one (rowTotal_pos c s)]
  exact List.single_le_sum
    (fun x hx => by
      obtain ⟨u, _, rfl⟩ := List.mem_map.mp hx
      exact (rowTotal_term_pos c s u).le)
    _ (List.mem_map_of_mem _ ht)

theorem transProb_row_sum (c : List (List String)) (s : String) :
    ((states c).map fun t => transProb c s t).sum = 1 := by
  have h : ((states c).map fun t => transProb c s t) =
      ((states c).map fun t => (corpusCount c s t : ℚ) + EPS_TRAIN).map
        fun x => x / rowTotal c s := by
    rw [List.map_map]
    rfl
  rw [h, sum_map_div]
  exact div_self (ne_of_gt (rowTotal_pos c s))

theorem mem_transitionPairs_fst :
    ∀ {l : List String} {p : String × String},
      p ∈ transitionPairs l → p.1 ∈ l.dropLast
  | a :: b :: rest, p, hp => by
    rw [show transitionPairs (a :: b :: rest) =
        (a, b) :: transitionPairs (b :: rest) from rfl] at hp
    rcases List.mem_cons.mp hp with h | h
    · subst h
      simp
    · have ih := mem_transitionPairs_fst h
      rw [show (a :: b :: rest).dropLast = a :: (b :: rest).dropLast from rfl]
      exact List.mem_cons_of_mem _ ih

theorem sessionPairs_fst_mem {e : List String} {p : String × String}
    (hp : p ∈ sessionPairs e) : p.1 ∈ START_TOKEN :: e := by
  have h := mem_transitionPairs_fst hp
  have hpad : (paddedSequence e).dropLast = START_TOKEN :: e := by
    show ((START_TOKEN :: e) ++ [END_TOKEN]).dropLast = START_TOKEN :: e
    exact List.dropLast_concat
  rwa [show paddedSequence e = START_TOKEN :: e ++ [END_TOKEN] from rfl,
    show START_TOKEN :: e ++ [END_TOKEN] = paddedSequence e from rfl, hpad] at h

theorem corpusCount_end_zero (c : List (List String))
    (hEnd : END_TOKEN ∉ c.flatten) (t : String) :
    corpusCount c END_TOKEN t = 0 := by
  rw [corpusCount, List.count_eq_zero]
  intro hmem
  obtain ⟨l, hl, hpl⟩ := List.mem_flatten.mp hmem
  obtain ⟨e, he, rfl⟩ := List.mem_map.mp hl
  have hfst := sessionPairs_fst_mem hpl
  rcases List.mem_cons.mp hfst with h | h
  · have heq : END_TOKEN = START_TOKEN := h
    exact absurd heq (by decide)
  · exact hEnd (List.mem_flatten.mpr ⟨e, he, h⟩)

theorem transProb_uniform (c : List (List String)) (s : String)
    (h0 : ∀ t, corpusCount c s t = 0) (t : String) :
    transProb c s t = 1 / ((states c).length : ℚ) := by
  unfold transProb rowTotal
  have hm : ((states c).map fun u => (corpusCount c s u : ℚ) + EPS_TRAIN) =
      List.replicate (states c).length EPS_TRAIN := by
    rw [List.map_congr_left (g := Function.const String EPS_TRAIN)
      (fun u _ => by simp [h0 u, Function.const]), List.map_const]
  rw [hm, List.sum_replicate, h0 t]
  have hn : 0 < ((states c).length : ℚ) := by
    have : 0 < (states c).length := by simp [states]
    exact_mod_cast this
  rw [nsmul_eq_mul]
  rw [div_eq_div_iff (mul_ne_zero hn.ne' (by norm_num [EPS_TRAIN])) hn.ne']
  ring

/-- C2: for every model the trainer builds from a corpus of (non-empty,
sentinel-free) normal sessions, every row of the probability table whose
source state has at least one observed outgoing transition sums to 1.0
within tolerance 1e-9 — in the embedding's exact rational arithmetic the
row sum is exactly 1. -/
theorem transition_rows_sum_to_one (c : List (List String)) (s : String)
    (hc : TrainCorpus c) (hobs : ∃ t, 0 < corpusCount c s t) :
    ((states c).map fun t => transProb c s t).sum = 1 ∧
      |((states c).map fun t => transProb c s t).sum - 1| ≤
        1 / 1000000000 := by
  refine ⟨transProb_row_sum c s, ?_⟩
  rw [transProb_row_sum c s]
  norm_num

theorem transition_rows_sum_to_one_witness :
    ((states [["a"]]).map fun t => transProb [["a"]] START_TOKEN t).sum = 1 ∧
      |((states [["a"]]).map fun t => transProb [["a"]] START_TOKEN t).sum -
        1| ≤ 1 / 1000000000 :=
  transition_rows_sum_to_one [["a"]] START_TOKEN
    ⟨by decide, by decide, by decide⟩ ⟨"a", by decide⟩

/-- C10: the trainer adds ε to every cell of the count matrix, so every
entry of the probability matrix is strictly positive, every row sums to 1,
`SESSION_END` is never observed as a source in a sentinel-free corpus, and
the row of any state with no observed outgoing transition is the uniform
distribution `1 / n_states`. -/
theorem smoothing_fills_every_row (c : List (List String))
    (hc : TrainCorpus c) :
    (∀ s t : String, 0 < transProb c s t) ∧
      (∀ s : String, ((states c).map fun t => transProb c s t).sum = 1) ∧
      (∀ t : String, corpusCount c END_TOKEN t = 0) ∧
      (∀ s : String, (∀ t, corpusCount c s t = 0) →
        ∀ t : String, transProb c s t = 1 / ((states c).length : ℚ)) :=
  ⟨transProb_pos c, transProb_row_sum c,
    corpusCount_end_zero c hc.2.1,
    fun s h0 t => transProb_uniform c s h0 t⟩

theorem smoothing_fills_every_row_witness :
    (∀ s t : String, 0 < transProb [["a"]] s t) ∧
      (∀ s : String,
        ((states [["a"]]).map fun t => transProb [["a"]] s t).sum = 1) ∧
      (∀ t : String, corpusCount [["a"]] END_TOKEN t = 0) ∧
      (∀ s : String, (∀ t, corpusCount [["a"]] s t = 0) →
        ∀ t : String,
          transProb [["a"]] s t = 1 / ((states [["a"]]).length : ℚ)) :=
  smoothing_fills_every_row [["a"]] ⟨by decide, by decide, by decide⟩

/-! ## Scorer bounds (score_sequences.score_session) -/

theorem EPS_SCORE_pos : 0 < EPS_SCORE := by norm_num [EPS_SCORE]

theorem stepProb_pos (sts : List String) (P : String → String → ℚ)
    (u v : String) : 0 < stepProb sts P u v :=
  lt_of_lt_of_le EPS_SCORE_pos (le_max_right _ _)

theorem stepProb_trained_le_one (c : List (List String)) (u v : String) :
    stepProb (states c) (transProb c) u v ≤ 1 := by
  unfold stepProb lookupProb
  by_cases h : u ∈ states c ∧ v ∈ states c
  · rw [if_pos h]
    exact max_le (transProb_le_one c u h.2) (by norm_num [EPS_SCORE])
  · rw [if_neg h]
    norm_num [EPS_SCORE]

theorem neg_log_nonneg_of_prob {q : ℚ} (h0 : 0 < q) (h1 : q ≤ 1) :
    0 ≤ -Real.log ((q : ℚ) : ℝ) := by
  have h0' : (0 : ℝ) ≤ ((q : ℚ) : ℝ) := by exact_mod_cast h0.le
  have h1' : ((q : ℚ) : ℝ) ≤ 1 := by exact_mod_cast h1
  simpa using Real.log_nonpos h0' h1'

theorem pipelineCount_le_out (c : List (List String)) (u v : String) :
    pipelineCount c u v ≤ pipelineOut c u := by
  unfold pipelineCount pipelineOut
  rw [List.count, ← List.countP_eq_length_filter]
  exact List.countP_mono_left fun x _ hx => by
    have : x = (u, v) := by simpa using hx
    simp [this]

theorem pipelineProb_pos (c : List (List String)) (u v : String) :
    0 < pipelineProb c u v := by
  unfold pipelineProb
  split
  case isTrue h =>
    have hout : 0 < pipelineOut c u := lt_of_lt_of_le h (pipelineCount_le_out c u v)
    exact div_pos (by exact_mod_cast h) (by exact_mod_cast hout)
  case isFalse h => exact EPS_SCORE_pos

theorem pipelineProb_le_one (c : List (List String)) (u v : String) :
    pipelineProb c u v ≤ 1 := by
  unfold pipelineProb
  split
  case isTrue h =>
    have hout : 0 < pipelineOut c u := lt_of_lt_of_le h (pipelineCount_le_out c u v)
    rw [div_le_one (by exact_mod_cast hout)]
    exact_mod_cast pipelineCount_le_out c u v
  case isFalse h => norm_num [EPS_SCORE]

/-- C1: every session — with any event list, including event types absent
from the trained state space — scored against a model produced by the
trainer gets a non-negative (hence finite, being a real number) anomaly
score; the probability fed to `log` at every step is clamped to at least
`EPSILON = 1e-9`, so `log 0` is never evaluated.  The same holds for the
in-pipeline scorer of `vaultshield_pipeline.py`. -/
theorem score_session_nonneg_finite (c : List (List String))
    (events : List String) :
    0 ≤ scoreSession (states c) (transProb c) events ∧
      (∀ p ∈ sessionPairs events,
        EPS_SCORE ≤ stepProb (states c) (transProb c) p.1 p.2) ∧
      0 ≤ pipelineScore c events := by
  refine ⟨?_, fun p _ => le_max_right _ _, ?_⟩
  · apply div_nonneg _ (by positivity)
    apply List.sum_nonneg
    intro x hx
    obtain ⟨p, _, rfl⟩ := List.mem_map.mp hx
    exact neg_log_nonneg_of_prob (stepProb_pos _ _ _ _)
      (stepProb_trained_le_one c p.1 p.2)
  · apply div_nonneg _ (by positivity)
    apply List.sum_nonneg
    intro x hx
    obtain ⟨p, _, rfl⟩ := List.mem_map.mp hx
    exact neg_log_nonneg_of_prob (pipelineProb_pos c p.1 p.2)
      (pipelineProb_le_one c p.1 p.2)

/-! ## Order invariance of training (C9) -/

/-- C9: training is invariant to the order in which the qualifying sessions
are presented: a permutation of the corpus yields the identical count
table, the identical frozen state list, and the identical probability
matrix (exact equality — the embedding's rationals carry no floating-point
summation error). -/
theorem training_order_invariant (c1 c2 : List (List String))
    (hperm : List.Perm c1 c2) :
    (∀ s t, corpusCount c1 s t = corpusCount c2 s t) ∧
      states c1 = states c2 ∧
      (∀ s t, transProb c1 s t = transProb c2 s t) := by
  have hpairs : List.Perm (corpusPairs c1) (corpusPairs c2) :=
    (hperm.map sessionPairs).flatten
  have hcount : ∀ s t, corpusCount c1 s t = corpusCount c2 s t := by
    intro s t
    unfold corpusCount List.count
    exact hpairs.countP_eq _
  have hstates : states c1 = states c2 := by
    unfold states uniqueEvents
    have hflat : List.Perm c1.flatten.dedup c2.flatten.dedup :=
      hperm.flatten.dedup
    have hsorted := List.eq_of_perm_of_sorted
      (r := fun a b : String => a ≤ b)
      (((List.perm_insertionSort _ c1.flatten.dedup).trans hflat).trans
        (List.perm_insertionSort _ c2.flatten.dedup).symm)
      (List.sorted_insertionSort _ c1.flatten.dedup)
      (List.sorted_insertionSort _ c2.flatten.dedup)
    rw [hsorted]
  refine ⟨hcount, hstates, fun s t => ?_⟩
  have hrow : rowTotal c1 s = rowTotal c2 s := by
    unfold rowTotal
    rw [hstates]
    exact congrArg _ (List.map_congr_left fun u _ => by rw [hcount s u])
  unfold transProb
  rw [hcount s t, hrow]

theorem training_order_invariant_witness :
    (∀ s t, corpusCount [["a"], ["b"]] s t = corpusCount [["b"], ["a"]] s t) ∧
      states [["a"], ["b"]] = states [["b"], ["a"]] ∧
      (∀ s t, transProb [["a"], ["b"]] s t = transProb [["b"], ["a"]] s t) :=
  training_order_invariant [["a"], ["b"]] [["b"], ["a"]]
    (List.Perm.swap ["b"] ["a"] [])

/-! ## Empty sessions (C3): nothing rejects them -/

/-- C3 counterexample: no `MalformedSessionError` exists in the code.  At a
concrete input, adding an empty session to the training corpus leaves the
learned transition table unchanged (`if not events: continue` silently
skips it, training does not abort), and the scorer pads the empty session
to `[SESSION_START, SESSION_END]` and returns the numeric score
`-log(1e-9) / 2` for it instead of failing. -/
theorem empty_session_not_rejected_cex :
    pipelinePairs [["login"], []] = pipelinePairs [["login"]] ∧
      paddedSequence ([] : List String) = [START_TOKEN, END_TOKEN] ∧
      pipelineScore [["login"]] [] = -Real.log ((EPS_SCORE : ℚ) : ℝ) / 2 := by
  refine ⟨by decide, by decide, ?_⟩
  have hp : pipelineProb [["login"]] START_TOKEN END_TOKEN = EPS_SCORE := by
    unfold pipelineProb
    rw [if_neg (by decide)]
  unfold pipelineScore
  rw [show sessionPairs ([] : List String) = [(START_TOKEN, END_TOKEN)]
    from rfl]
  rw [show ((paddedSequence ([] : List String)).length : ℝ) = 2 by
    norm_num [paddedSequence]]
  simp [hp]

/-- C3 (amended): a session with zero events is not rejected with a
`MalformedSessionError`: the trainer of `vaultshield_pipeline.py` silently
skips it (prepending an empty session to any corpus leaves the transition
counts and the model unchanged, and training completes), and the scorer
silently pads it to `[SESSION_START, SESSION_END]` and scores that
two-token sequence. -/
theorem empty_session_skipped_and_padded (sessions : List (List String)) :
    pipelinePairs ([] :: sessions) = pipelinePairs sessions ∧
      (∀ u v, pipelineProb ([] :: sessions) u v = pipelineProb sessions u v) ∧
      paddedSequence ([] : List String) = [START_TOKEN, END_TOKEN] ∧
      pipelineScore sessions [] =
        -Real.log ((pipelineProb sessions START_TOKEN END_TOKEN : ℚ) : ℝ) /
          2 := by
  have h1 : pipelinePairs ([] :: sessions) = pipelinePairs sessions := by
    unfold pipelinePairs
    rw [List.filter_cons]
    norm_num
  refine ⟨h1, fun u v => ?_, rfl, ?_⟩
  · unfold pipelineProb pipelineCount pipelineOut
    rw [h1]
  · unfold pipelineScore
    rw [show sessionPairs ([] : List String) = [(START_TOKEN, END_TOKEN)]
      from rfl]
    rw [show ((paddedSequence ([] : List String)).length : ℝ) = 2 by
      norm_num [paddedSequence]]
    simp

/-! ## Normalization is hard-coded per file (C4) -/

theorem rawScoreLoop_eq_sum (Q : String → String → ℚ) :
    ∀ (evs : List String) (curr : String),
      rawScoreLoop Q curr evs =
        ((transitionPairs (curr :: evs)).map fun p =>
          -Real.log ((Q p.1 p.2 : ℚ) : ℝ)).sum := by
  intro evs
  induction evs with
  | nil => intro curr; simp [rawScoreLoop, transitionPairs]
  | cons e rest ih =>
    intro curr
    rw [show transitionPairs (curr :: e :: rest) =
      (curr, e) :: transitionPairs (e :: rest) from rfl]
    rw [List.map_cons, List.sum_cons, show rawScoreLoop Q curr (e :: rest) =
      -Real.log ((Q curr e : ℚ) : ℝ) + rawScoreLoop Q e rest from rfl, ih e]

/-- C4 counterexample: `score_sequences.score_session` takes no
mode argument and always divides by the padded length, so at a concrete
trained model and session its return value differs from the raw
(unnormalized) total negative log-likelihood — a caller of the scorer
cannot obtain the raw total from it. -/
theorem normalization_hardcoded_cex :
    scoreSession (states [["a"]]) (transProb [["a"]]) ["a"] ≠
      scoreSessionTotal (states [["a"]]) (transProb [["a"]]) ["a"] := by
  have hsts : states [["a"]] = [START_TOKEN, "a", END_TOKEN] := by decide
  have hc2 : corpusCount [["a"]] START_TOKEN "a" = 1 := by decide
  have hrow : rowTotal [["a"]] START_TOKEN = 100003 / 100000 := by
    unfold rowTotal
    rw [hsts]
    rw [List.map_cons, List.map_cons, List.map_cons, List.map_nil,
      List.sum_cons, List.sum_cons, List.sum_cons, List.sum_nil]
    rw [show corpusCount [["a"]] START_TOKEN START_TOKEN = 0 from by decide,
      hc2, show corpusCount [["a"]] START_TOKEN END_TOKEN = 0 from by decide]
    norm_num [EPS_TRAIN]
  have hp1 : transProb [["a"]] START_TOKEN "a" = 100001 / 100003 := by
    unfold transProb
    rw [hc2, hrow]
    norm_num [EPS_TRAIN]
  have hc5 : corpusCount [["a"]] "a" END_TOKEN = 1 := by decide
  have hrow2 : rowTotal [["a"]] "a" = 100003 / 100000 := by
    unfold rowTotal
    rw [hsts]
    rw [List.map_cons, List.map_cons, List.map_cons, List.map_nil,
      List.sum_cons, List.sum_cons, List.sum_cons, List.sum_nil]
    rw [show corpusCount [["a"]] "a" START_TOKEN = 0 from by decide,
      show corpusCount [["a"]] "a" "a" = 0 from by decide, hc5]
    norm_num [EPS_TRAIN]
  have hp2 : transProb [["a"]] "a" END_TOKEN = 100001 / 100003 := by
    unfold transProb
    rw [hc5, hrow2]
    norm_num [EPS_TRAIN]
  have hs1 : stepProb (states [["a"]]) (transProb [["a"]]) START_TOKEN "a" =
      100001 / 100003 := by
    unfold stepProb lookupProb
    rw [if_pos ⟨by decide, by decide⟩, hp1,
      max_eq_left (by norm_num [EPS_SCORE])]
  have hs2 : stepProb (states [["a"]]) (transProb [["a"]]) "a" END_TOKEN =
      100001 / 100003 := by
    unfold stepProb lookupProb
    rw [if_pos ⟨by decide, by decide⟩, hp2,
      max_eq_left (by norm_num [EPS_SCORE])]
  have hT : scoreSessionTotal (states [["a"]]) (transProb [["a"]]) ["a"] =
      -Real.log ((100001 / 100003 : ℚ) : ℝ) * 2 := by
    unfold scoreSessionTotal
    rw [show sessionPairs ["a"] = [(START_TOKEN, "a"), ("a", END_TOKEN)]
      from rfl]
    rw [List.map_cons, List.map_cons, List.map_nil, List.sum_cons,
      List.sum_cons, List.sum_nil]
    rw [show ((START_TOKEN, "a").1 : String) = START_TOKEN from rfl]
    rw [hs1, hs2]
    ring
  have hpos : 0 < -Real.log ((100001 / 100003 : ℚ) : ℝ) := by
    have hcast : ((100001 / 100003 : ℚ) : ℝ) = 100001 / 100003 := by
      push_cast
      ring
    have h0 : (0 : ℝ) < ((100001 / 100003 : ℚ) : ℝ) := by
      rw [hcast]; norm_num
    have h1 : ((100001 / 100003 : ℚ) : ℝ) < 1 := by
      rw [hcast]; norm_num
    simpa using Real.log_neg h0 h1
  have hlen : ((paddedSequence ["a"]).length : ℝ) = 3 := by
    norm_num [paddedSequence]
  intro heq
  rw [scoreSession, hlen, hT] at heq
  linarith [hpos]

/-- C4 (amended): the two scoring modes exist only as separate, hard-coded
implementations, not as a caller-selectable configuration:
`score_sequences.score_session` always returns the total divided by the
padded length (so it cannot return the raw total whenever that total is
non-zero), while the scorer of `pipelines/vaultshield/score_sessions.py`
always returns the raw unnormalized sum of `-log(prob)` with no division. -/
theorem normalization_per_file (sts : List String)
    (P Q : String → String → ℚ) (events : List String) :
    scoreSession sts P events * ((events.length : ℝ) + 2) =
        scoreSessionTotal sts P events ∧
      (scoreSessionTotal sts P events ≠ 0 →
        scoreSession sts P events ≠ scoreSessionTotal sts P events) ∧
      rawSessionRisk Q events =
        ((rawPairs events).map fun p =>
          -Real.log ((Q p.1 p.2 : ℚ) : ℝ)).sum := by
  have hlen : ((paddedSequence events).length : ℝ) = (events.length : ℝ) + 2 := by
    simp [paddedSequence]
    push_cast
    ring
  have hc : ((events.length : ℝ) + 2) ≠ 0 := by positivity
  refine ⟨?_, ?_, rawScoreLoop_eq_sum Q events RAW_START⟩
  · rw [scoreSession, hlen]
    exact div_mul_cancel₀ _ hc
  · intro hT0 heq
    rw [scoreSession, hlen, div_eq_iff hc] at heq
    have hfac : scoreSessionTotal sts P events * ((events.length : ℝ) + 1) = 0 := by
      nlinarith [heq]
    rcases mul_eq_zero.mp hfac with h | h
    · exact hT0 h
    · have : (0 : ℝ) ≤ (events.length : ℝ) := Nat.cast_nonneg _
      linarith

/-! ## Threshold comparison direction (C6) -/

/-- C6 counterexample: on the spec's own calibration example (normal scores
`[1..9, 100]`, quantile 0.9) the threshold is 18.1, and a session scoring
exactly 18.1 is predicted NEGATIVE by `vaultshield_pipeline.export_artifacts`
(`anomaly_score > threshold` — strictly above), refuting "a session whose
score is exactly equal to the threshold is predicted positive" for that
classifier; the gridsense classifier (`scores >= threshold`) does predict it
positive. -/
theorem threshold_at_value_cex :
    quantileLinear [1, 2, 3, 4, 5, 6, 7, 8, 9, 100] (9 / 10) = 181 / 10 ∧
      vaultshieldPredict (181 / 10) (181 / 10) = false ∧
      gridsensePredict (181 / 10) (181 / 10) = true := by
  refine ⟨?_, by simp [vaultshieldPredict], by simp [gridsensePredict]⟩
  have hsort : quantileSorted [1, 2, 3, 4, 5, 6, 7, 8, 9, 100] =
      [1, 2, 3, 4, 5, 6, 7, 8, 9, 100] := by
    norm_num [quantileSorted, List.insertionSort, List.orderedInsert]
  have hpos : quantilePos [1, 2, 3, 4, 5, 6, 7, 8, 9, 100] (9 / 10) =
      81 / 10 := by
    rw [quantilePos, hsort]
    norm_num
  have hfl : ⌊(81 / 10 : ℚ)⌋ = 8 := by
    rw [Int.floor_eq_iff]
    constructor <;> norm_num
  have hcl : ⌈(81 / 10 : ℚ)⌉ = 9 := by
    rw [Int.ceil_eq_iff]
    constructor <;> norm_num
  rw [quantileLinear, hpos, hfl, hcl, hsort]
  rw [show ((8 : ℤ).toNat) = 8 from rfl, show ((9 : ℤ).toNat) = 9 from rfl]
  rw [show (([1, 2, 3, 4, 5, 6, 7, 8, 9, 100] : List ℚ)).getD 8 0 = 9
    from rfl]
  rw [show (([1, 2, 3, 4, 5, 6, 7, 8, 9, 100] : List ℚ)).getD 9 0 = 100
    from rfl]
  norm_num

/-- C6 (amended): the two classifiers disagree at the threshold itself: the
gridsense model predicts positive at or above the threshold (a score equal
to the threshold is positive), while `vaultshield_pipeline` predicts
positive strictly above its calibrated 0.99-quantile threshold, so a
session scoring exactly that threshold is predicted negative there.  Above
the threshold both predict positive. -/
theorem threshold_at_value_amended (normal : List ℚ) (t x : ℚ) :
    gridsensePredict t t = true ∧
      vaultshieldPredict (quantileLinear normal (99 / 100))
        (quantileLinear normal (99 / 100)) = false ∧
      (vaultshieldPredict x (quantileLinear normal (99 / 100)) = true ↔
        quantileLinear normal (99 / 100) < x) ∧
      (gridsensePredict x t = true ↔ t ≤ x) := by
  refine ⟨by simp [gridsensePredict], by simp [vaultshieldPredict],
    by simp [vaultshieldPredict], by simp [gridsensePredict]⟩

/-! ## The calibrator and small samples (C8) -/

/-- C8 counterexample: `export_artifacts` performs no sample-size check: on
a concrete sample of only two known-normal scores — fewer than the minimum
of 10 the spec demands — the calibrator silently computes and returns the
interpolated 0.99-quantile threshold 1.99 instead of surfacing an
`InsufficientCalibrationData` condition (no such condition exists anywhere
in the code). -/
theorem calibrator_small_sample_cex :
    ([1, 2] : List ℚ).length < 10 ∧
      calibrateThreshold [1, 2] = 199 / 100 := by
  refine ⟨by norm_num, ?_⟩
  have hsort : quantileSorted [1, 2] = [1, 2] := by
    norm_num [quantileSorted, List.insertionSort, List.orderedInsert]
  have hpos : quantilePos [1, 2] (99 / 100) = 99 / 100 := by
    rw [quantilePos, hsort]
    norm_num
  have hfl : ⌊(99 / 100 : ℚ)⌋ = 0 := by
    rw [Int.floor_eq_iff]
    constructor <;> norm_num
  have hcl : ⌈(99 / 100 : ℚ)⌉ = 1 := by
    rw [Int.ceil_eq_iff]
    constructor <;> norm_num
  rw [calibrateThreshold, quantileLinear, hpos, hfl, hcl, hsort]
  rw [show ((0 : ℤ).toNat) = 0 from rfl, show ((1 : ℤ).toNat) = 1 from rfl]
  rw [show (([1, 2] : List ℚ)).getD 0 0 = 1 from rfl]
  rw [show (([1, 2] : List ℚ)).getD 1 0 = 2 from rfl]
  norm_num

theorem quantileLinear_bounds (xs : List ℚ) (q : ℚ) (hne : xs ≠ [])
    (hq0 : 0 ≤ q) (hq1 : q ≤ 1) :
    ∃ a ∈ xs, ∃ b ∈ xs,
      a ≤ quantileLinear xs q ∧ quantileLinear xs q ≤ b := by
  have hperm : List.Perm (quantileSorted xs) xs := List.perm_insertionSort _ xs
  have hsorted : List.Sorted (fun a b : ℚ => a ≤ b) (quantileSorted xs) :=
    List.sorted_insertionSort _ xs
  have hlen : 0 < (quantileSorted xs).length := by
    rw [hperm.length_eq]
    exact List.length_pos.mpr hne
  have hn1 : (1 : ℚ) ≤ ((quantileSorted xs).length : ℚ) := by
    exact_mod_cast hlen
  have hh0 : 0 ≤ quantilePos xs q := by
    unfold quantilePos
    apply mul_nonneg hq0
    linarith
  have hhle : quantilePos xs q ≤ ((quantileSorted xs).length : ℚ) - 1 := by
    unfold quantilePos
    nlinarith
  have hfl0 : 0 ≤ ⌊quantilePos xs q⌋ := Int.floor_nonneg.mpr hh0
  have hlocast : ((⌊quantilePos xs q⌋.toNat : ℕ) : ℚ) =
      ((⌊quantilePos xs q⌋ : ℤ) : ℚ) := by
    exact_mod_cast Int.toNat_of_nonneg hfl0
  have hlo_le_h : ((⌊quantilePos xs q⌋.toNat : ℕ) : ℚ) ≤ quantilePos xs q := by
    rw [hlocast]
    exact Int.floor_le _
  have hh_lt : quantilePos xs q <
      ((⌊quantilePos xs q⌋.toNat : ℕ) : ℚ) + 1 := by
    rw [hlocast]
    exact Int.lt_floor_add_one _
  have hlo_lt : ⌊quantilePos xs q⌋.toNat < (quantileSorted xs).length := by
    have hq : ((⌊quantilePos xs q⌋.toNat : ℕ) : ℚ) <
        ((quantileSorted xs).length : ℚ) := by
      linarith
    exact_mod_cast hq
  have hceil_le : ⌈quantilePos xs q⌉ ≤ ((quantileSorted xs).length : ℤ) - 1 := by
    rw [Int.ceil_le]
    push_cast
    linarith
  have hhi_lt : ⌈quantilePos xs q⌉.toNat < (quantileSorted xs).length := by
    omega
  have hlo_le_hi : ⌊quantilePos xs q⌋.toNat ≤ ⌈quantilePos xs q⌉.toNat :=
    Int.toNat_le_toNat (Int.floor_le_ceil _)
  have hmono : (quantileSorted xs).getD ⌊quantilePos xs q⌋.toNat 0 ≤
      (quantileSorted xs).getD ⌈quantilePos xs q⌉.toNat 0 := by
    rw [List.getD_eq_getElem _ _ hlo_lt, List.getD_eq_getElem _ _ hhi_lt]
    rcases lt_or_eq_of_le hlo_le_hi with hlt | heq
    · have := hsorted.rel_get_of_lt
        (a := ⟨⌊quantilePos xs q⌋.toNat, hlo_lt⟩)
        (b := ⟨⌈quantilePos xs q⌉.toNat, hhi_lt⟩) (Fin.mk_lt_mk.mpr hlt)
      simpa [List.get_eq_getElem] using this
    · exact le_of_eq (by simp only [heq])
  refine ⟨(quantileSorted xs).getD ⌊quantilePos xs q⌋.toNat 0, ?_,
    (quantileSorted xs).getD ⌈quantilePos xs q⌉.toNat 0, ?_, ?_, ?_⟩
  · rw [List.getD_eq_getElem _ _ hlo_lt]
    exact hperm.mem_iff.mp (List.getElem_mem hlo_lt)
  · rw [List.getD_eq_getElem _ _ hhi_lt]
    exact hperm.mem_iff.mp (List.getElem_mem hhi_lt)
  · unfold quantileLinear
    nlinarith [mul_nonneg (by linarith :
        (0 : ℚ) ≤ quantilePos xs q - ((⌊quantilePos xs q⌋.toNat : ℕ) : ℚ))
      (by linarith : (0 : ℚ) ≤
        (quantileSorted xs).getD ⌈quantilePos xs q⌉.toNat 0 -
          (quantileSorted xs).getD ⌊quantilePos xs q⌋.toNat 0)]
  · unfold quantileLinear
    nlinarith [mul_nonneg (by linarith : (0 : ℚ) ≤ 1 -
        (quantilePos xs q - ((⌊quantilePos xs q⌋.toNat : ℕ) : ℚ)))
      (by linarith : (0 : ℚ) ≤
        (quantileSorted xs).getD ⌈quantilePos xs q⌉.toNat 0 -
          (quantileSorted xs).getD ⌊quantilePos xs q⌋.toNat 0)]

/-- C8 (amended): handed fewer than 10 known-normal scores (any non-empty
sample), the calibrator does not surface any error or warning condition: it
silently computes and returns the interpolated 0.99-quantile, a plain
numeric threshold lying between two of the observed scores. -/
theorem calibrator_silent_small_sample (scores : List ℚ)
    (hne : scores ≠ []) (hsmall : scores.length < 10) :
    ∃ a ∈ scores, ∃ b ∈ scores,
      a ≤ calibrateThreshold scores ∧ calibrateThreshold scores ≤ b :=
  quantileLinear_bounds scores (99 / 100) hne (by norm_num) (by norm_num)

theorem calibrator_silent_small_sample_witness :
    ∃ a ∈ ([1, 2] : List ℚ), ∃ b ∈ ([1, 2] : List ℚ),
      a ≤ calibrateThreshold [1, 2] ∧ calibrateThreshold [1, 2] ≤ b :=
  calibrator_silent_small_sample [1, 2] (by simp) (by norm_num)

/-! ## Soft-metric evaluator: rounding helpers -/

theorem roundHalfEven_intCast (z : ℤ) : roundHalfEven ((z : ℤ) : ℚ) = z := by
  unfold roundHalfEven
  rw [Int.floor_intCast, sub_self]
  norm_num

theorem round3_zero : round3 0 = 0 := by
  have h : roundHalfEven ((0 : ℚ) * 1000) = 0 := by
    rw [show ((0 : ℚ) * 1000) = (((0 : ℤ) : ℚ)) by norm_num]
    rw [roundHalfEven_intCast]
  rw [round3, h]
  norm_num

theorem round3_one : round3 1 = 1 := by
  have h : roundHalfEven ((1 : ℚ) * 1000) = 1000 := by
    rw [show ((1 : ℚ) * 1000) = (((1000 : ℤ) : ℚ)) by norm_num]
    rw [roundHalfEven_intCast]
  rw [round3, h]
  norm_num

/-! ## Soft-metric evaluator: dilation over a single positive -/

theorem singlePositive_length (n k : ℕ) : (singlePositive n k).length = n := by
  simp [singlePositive]

theorem singlePositive_getD (n k i : ℕ) :
    (singlePositive n k).getD i false = if i < n then (i == k) else false := by
  unfold singlePositive
  exact getD_map_range _ n i false

theorem nearPositive_single (n k r i : ℕ) (hk : k < n) :
    nearPositive (singlePositive n k) r i =
      (decide (i ≤ k + r) && decide (k ≤ i + r)) := by
  unfold nearPositive
  rw [singlePositive_length]
  rw [Bool.eq_iff_iff]
  simp only [List.any_eq_true, List.mem_range, Bool.and_eq_true,
    decide_eq_true_eq]
  constructor
  · rintro ⟨j, hj, ⟨hg, h1⟩, h2⟩
    rw [singlePositive_getD, if_pos hj] at hg
    have hjk : j = k := by simpa using hg
    subst hjk
    exact ⟨h1, h2⟩
  · rintro ⟨h1, h2⟩
    refine ⟨k, hk, ⟨?_, h1⟩, h2⟩
    rw [singlePositive_getD, if_pos hk]
    simp

theorem countIdx_single_and (n k : ℕ) (p : ℕ → Bool) (hk : k < n) :
    countIdx n (fun i => (singlePositive n k).getD i false && p i) =
      if p k then 1 else 0 := by
  have hcongr : ∀ i ∈ List.range n,
      ((singlePositive n k).getD i false && p i) = ((i == k) && p i) := by
    intro i hi
    rw [singlePositive_getD, if_pos (List.mem_range.mp hi)]
  unfold countIdx
  rw [List.filter_congr hcongr, filter_range_beq n k p hk]
  by_cases hp : p k <;> simp [hp]

theorem countIdx_and_single (n k : ℕ) (p : ℕ → Bool) (hk : k < n) :
    countIdx n (fun i => p i && (singlePositive n k).getD i false) =
      if p k then 1 else 0 := by
  have hcongr : ∀ i ∈ List.range n,
      (p i && (singlePositive n k).getD i false) = ((i == k) && p i) := by
    intro i hi
    rw [singlePositive_getD, if_pos (List.mem_range.mp hi), Bool.and_comm]
  unfold countIdx
  rw [List.filter_congr hcongr, filter_range_beq n k p hk]
  by_cases hp : p k <;> simp [hp]

/-! ## The spec's soft-metric example (C5) -/

/-- C5: on a series of any length at least 13 whose only true positive is
at index 10 and whose only predicted positive is at index 12, the evaluator
returns precision 1.0 and recall 1.0 for tolerance radius 3 (the prediction
falls in the dilated truth zone, the truth falls in the dilated prediction
zone), and precision 0.0 and recall 0.0 for radius 1. -/
theorem soft_metrics_example (n : ℕ) (hn : 13 ≤ n) :
    ((evaluateSoftMetrics (singlePositive n 10) (singlePositive n 12)
        3).precision = 1 ∧
      (evaluateSoftMetrics (singlePositive n 10) (singlePositive n 12)
        3).«recall» = 1) ∧
      (evaluateSoftMetrics (singlePositive n 10) (singlePositive n 12)
        1).precision = 0 ∧
      (evaluateSoftMetrics (singlePositive n 10) (singlePositive n 12)
        1).«recall» = 0 := by
  have h10 : 10 < n := by omega
  have h12 : 12 < n := by omega
  have hlen0 : ¬(singlePositive n 10).length = 0 := by
    rw [singlePositive_length]
    omega
  have heval : ∀ r, evaluateSoftMetrics (singlePositive n 10)
      (singlePositive n 12) r =
      ⟨round3 (softPrecisionRaw (singlePositive n 10) (singlePositive n 12) r),
        round3 (softRecallRaw (singlePositive n 10) (singlePositive n 12) r),
        round3 (((singlePositive n 12).count true : ℚ) /
          ((singlePositive n 12).length : ℚ))⟩ := by
    intro r
    unfold evaluateSoftMetrics
    rw [if_neg hlen0]
  have htp3 : softTP (singlePositive n 10) (singlePositive n 12) 3 = 1 := by
    unfold softTP
    rw [singlePositive_length, countIdx_single_and n 12 _ h12,
      nearPositive_single n 10 3 12 h10]
    norm_num
  have hfp3 : softFP (singlePositive n 10) (singlePositive n 12) 3 = 0 := by
    unfold softFP
    rw [singlePositive_length, countIdx_single_and n 12 _ h12,
      nearPositive_single n 10 3 12 h10]
    norm_num
  have htr3 : recallTP (singlePositive n 10) (singlePositive n 12) 3 = 1 := by
    unfold recallTP
    rw [singlePositive_length, countIdx_and_single n 10 _ h10,
      nearPositive_single n 12 3 10 h12]
    norm_num
  have hfr3 : recallFN (singlePositive n 10) (singlePositive n 12) 3 = 0 := by
    unfold recallFN
    rw [singlePositive_length, countIdx_and_single n 10 _ h10,
      nearPositive_single n 12 3 10 h12]
    norm_num
  have htp1 : softTP (singlePositive n 10) (singlePositive n 12) 1 = 0 := by
    unfold softTP
    rw [singlePositive_length, countIdx_single_and n 12 _ h12,
      nearPositive_single n 10 1 12 h10]
    norm_num
  have hfp1 : softFP (singlePositive n 10) (singlePositive n 12) 1 = 1 := by
    unfold softFP
    rw [singlePositive_length, countIdx_single_and n 12 _ h12,
      nearPositive_single n 10 1 12 h10]
    norm_num
  have htr1 : recallTP (singlePositive n 10) (singlePositive n 12) 1 = 0 := by
    unfold recallTP
    rw [singlePositive_length, countIdx_and_single n 10 _ h10,
      nearPositive_single n 12 1 10 h12]
    norm_num
  have hfr1 : recallFN (singlePositive n 10) (singlePositive n 12) 1 = 1 := by
    unfold recallFN
    rw [singlePositive_length, countIdx_and_single n 10 _ h10,
      nearPositive_single n 12 1 10 h12]
    norm_num
  refine ⟨⟨?_, ?_⟩, ?_, ?_⟩
  · rw [heval 3]
    show round3 (softPrecisionRaw (singlePositive n 10)
      (singlePositive n 12) 3) = 1
    unfold softPrecisionRaw
    rw [htp3, hfp3, if_pos (by norm_num)]
    rw [show ((1 : ℕ) : ℚ) / (((1 : ℕ) : ℚ) + ((0 : ℕ) : ℚ)) = 1 by norm_num]
    exact round3_one
  · rw [heval 3]
    show round3 (softRecallRaw (singlePositive n 10)
      (singlePositive n 12) 3) = 1
    unfold softRecallRaw
    rw [htr3, hfr3, if_pos (by norm_num)]
    rw [show ((1 : ℕ) : ℚ) / (((1 : ℕ) : ℚ) + ((0 : ℕ) : ℚ)) = 1 by norm_num]
    exact round3_one
  · rw [heval 1]
    show round3 (softPrecisionRaw (singlePositive n 10)
      (singlePositive n 12) 1) = 0
    unfold softPrecisionRaw
    rw [htp1, hfp1, if_pos (by norm_num)]
    rw [show ((0 : ℕ) : ℚ) / (((0 : ℕ) : ℚ) + ((1 : ℕ) : ℚ)) = 0 by norm_num]
    exact round3_zero
  · rw [heval 1]
    show round3 (softRecallRaw (singlePositive n 10)
      (singlePositive n 12) 1) = 0
    unfold softRecallRaw
    rw [htr1, hfr1, if_pos (by norm_num)]
    rw [show ((0 : ℕ) : ℚ) / (((0 : ℕ) : ℚ) + ((1 : ℕ) : ℚ)) = 0 by norm_num]
    exact round3_zero

theorem soft_metrics_example_witness :
    ((evaluateSoftMetrics (singlePositive 13 10) (singlePositive 13 12)
        3).precision = 1 ∧
      (evaluateSoftMetrics (singlePositive 13 10) (singlePositive 13 12)
        3).«recall» = 1) ∧
      (evaluateSoftMetrics (singlePositive 13 10) (singlePositive 13 12)
        1).precision = 0 ∧
      (evaluateSoftMetrics (singlePositive 13 10) (singlePositive 13 12)
        1).«recall» = 0 :=
  soft_metrics_example 13 (by norm_num)

/-! ## Degenerate inputs to the evaluator (C7) -/

theorem getD_false_of_not_mem {l : List Bool} (h : true ∉ l) (i : ℕ) :
    l.getD i false = false := by
  rw [List.getD_eq_getElem?_getD]
  cases hli : l[i]? with
  | none => rfl
  | some b =>
    cases b with
    | false => rfl
    | true => exact absurd (List.getElem?_mem hli) h

theorem countIdx_zero_left (n : ℕ) (g p : ℕ → Bool)
    (hg : ∀ i, g i = false) : countIdx n (fun i => g i && p i) = 0 := by
  unfold countIdx
  rw [List.filter_eq_nil_iff.mpr]
  · rfl
  · intro a _
    rw [hg a]
    simp

theorem countIdx_zero_right (n : ℕ) (g p : ℕ → Bool)
    (hg : ∀ i, g i = false) : countIdx n (fun i => p i && g i) = 0 := by
  unfold countIdx
  rw [List.filter_eq_nil_iff.mpr]
  · rfl
  · intro a _
    rw [hg a]
    simp

/-- C7: when the predicted-positive set is empty the evaluator returns
precision 0.0, and when the true-positive set is empty it returns recall
0.0; both degenerate cases take the guarded `else 0.0` branch, so no
division by zero can occur. -/
theorem soft_metrics_degenerate (yTrue yPred : List Bool) (r : ℕ) :
    (true ∉ yPred → (evaluateSoftMetrics yTrue yPred r).precision = 0) ∧
      (true ∉ yTrue → (evaluateSoftMetrics yTrue yPred r).«recall» = 0) := by
  constructor
  · intro hp
    by_cases h0 : yTrue.length = 0
    · unfold evaluateSoftMetrics
      rw [if_pos h0]
    · unfold evaluateSoftMetrics
      rw [if_neg h0]
      show round3 (softPrecisionRaw yTrue yPred r) = 0
      have htp : softTP yTrue yPred r = 0 :=
        countIdx_zero_left _ _ _ (getD_false_of_not_mem hp)
      have hfp : softFP yTrue yPred r = 0 :=
        countIdx_zero_left _ _ _ (getD_false_of_not_mem hp)
      unfold softPrecisionRaw
      rw [htp, hfp, if_neg (by norm_num)]
      exact round3_zero
  · intro ht
    by_cases h0 : yTrue.length = 0
    · unfold evaluateSoftMetrics
      rw [if_pos h0]
    · unfold evaluateSoftMetrics
      rw [if_neg h0]
      show round3 (softRecallRaw yTrue yPred r) = 0
      have htr : recallTP yTrue yPred r = 0 :=
        countIdx_zero_right _ _ _ (getD_false_of_not_mem ht)
      have hfr : recallFN yTrue yPred r = 0 :=
        countIdx_zero_right _ _ _ (getD_false_of_not_mem ht)
      unfold softRecallRaw
      rw [htr, hfr, if_neg (by norm_num)]
      exact round3_zero
